import Mathlib

/-!
Shallow embedding of `fifo_cache.go` (package `cache`,
`cortexproject/cortex/pkg/chunk/cache/fifo_cache.go`): a fixed-capacity
FIFO cache over an array of slots linked into a circular doubly-linked
ring by integer indices, with a key-to-slot index map and lazy
(read-time) expiry.

Modelling choices:
- Go `interface{}` values become the inductive `GoValue` (a byte slice,
  a string, or an integer), enough to express the `val.([]byte)` type
  assertion in `Fetch`.
- `time.Time` / `time.Duration` become `Int`; `time.Now()` becomes an
  explicit `now : Int` parameter; `time.Since(u)` becomes `now - u`.
- The Go map `index` becomes an association list with Go-map semantics
  (insert replaces in place or appends; delete filters the key out).
- Slice accesses that could go out of bounds in Go (a panic) are
  modelled with `Option`: `none` is a panic.
- Prometheus counters/gauges become `Nat`/`Int` fields of the cache
  record, incremented exactly where the source increments them.
-/

/-- A Go `interface{}` value: enough constructors to distinguish byte
slices (the only type `Fetch` accepts on a hit) from other values. -/
inductive GoValue where
  | bytes (bs : List Nat)
  | str (s : String)
  | int (n : Int)
deriving DecidableEq, Repr

/-- Go `sizeOf(i interface{})` restricted to the `GoValue` constructors:
`[]uint8` is its length, `string` its byte length, and anything else the
machine word size of an interface value. -/
def sizeOfValue : GoValue → Int
  | GoValue.bytes bs => bs.length
  | GoValue.str s => s.utf8ByteSize
  | GoValue.int _ => 16

/-- Go `sizeOf` on a `string` key: `len(v)` is the byte length. -/
def sizeOfKey (s : String) : Int := s.utf8ByteSize

/-- `type cacheEntry struct` from the source. -/
structure cacheEntry where
  updated : Int
  key : String
  value : GoValue
  prev : Nat
  next : Nat
deriving DecidableEq, Repr

/-- `type FifoCache struct` from the source, with the prometheus
handles replaced by plain counter/gauge fields. -/
structure FifoCache where
  size : Nat
  validity : Int
  entries : List cacheEntry
  index : List (String × Nat)
  first : Nat
  last : Nat
  entriesAdded : Nat
  entriesAddedNew : Nat
  entriesEvicted : Nat
  entriesCurrent : Nat
  totalGets : Nat
  totalMisses : Nat
  staleGets : Nat
  memoryBytes : Int
deriving DecidableEq, Repr

/-- Go map lookup `index[key]` on the association-list model. -/
def mapLookup : List (String × Nat) → String → Option Nat
  | [], _ => none
  | (k, i) :: rest, key => if k = key then some i else mapLookup rest key

/-- Go map assignment `index[key] = i`: replace in place if the key is
present, otherwise append. -/
def mapInsert : List (String × Nat) → String → Nat → List (String × Nat)
  | [], key, i => [(key, i)]
  | (k, j) :: rest, key, i =>
    if k = key then (k, i) :: rest else (k, j) :: mapInsert rest key i

/-- Go `delete(index, key)`. -/
def mapDelete (m : List (String × Nat)) (key : String) : List (String × Nat) :=
  m.filter (fun p => p.1 ≠ key)

/-- Go slice write `entries[i] = e`; out of bounds is a panic (`none`). -/
def setEntry : List cacheEntry → Nat → cacheEntry → Option (List cacheEntry)
  | [], _, _ => none
  | _ :: rest, 0, e => some (e :: rest)
  | x :: rest, i + 1, e => (setEntry rest i e).map (fun es => x :: es)

/-- Go field write `entries[i].prev = p`. -/
def setPrev (es : List cacheEntry) (i p : Nat) : Option (List cacheEntry) :=
  match es.get? i with
  | none => none
  | some e => setEntry es i { e with prev := p }

/-- Go field write `entries[i].next = n`. -/
def setNext (es : List cacheEntry) (i n : Nat) : Option (List cacheEntry) :=
  match es.get? i with
  | none => none
  | some e => setEntry es i { e with next := n }

/-- `unsafe.Sizeof(cacheEntry{})` on a 64-bit machine (24-byte
`time.Time`, 16-byte string header, 16-byte interface, two 8-byte
ints); only feeds the `memoryBytes` gauge. -/
def cacheEntrySizeof : Int := 72

/-- `NewFifoCache` from the source: empty entries and index, zero ring
pointers, and the initial memory-bytes gauge. -/
def NewFifoCache (size : Nat) (validity : Int) : FifoCache :=
  { size := size
    validity := validity
    entries := []
    index := []
    first := 0
    last := 0
    entriesAdded := 0
    entriesAddedNew := 0
    entriesEvicted := 0
    entriesCurrent := 0
    totalGets := 0
    totalMisses := 0
    staleGets := 0
    memoryBytes := cacheEntrySizeof * size }

/-- The unexported `(c *FifoCache) put(ctx, key, value)` from the
source, line for line; `now` stands for `time.Now()`. `none` is a Go
panic (an out-of-bounds slice access). -/
def FifoCache.put (c : FifoCache) (key : String) (value : GoValue) (now : Int) :
    Option FifoCache :=
  match mapLookup c.index key with
  | some index => do
    let entry0 ← c.entries.get? index
    let deltaSize := sizeOfValue value - sizeOfValue entry0.value
    let entry1 := { entry0 with updated := now, value := value }
    let es1 ← setNext c.entries entry1.prev entry1.next
    let es2 ← setPrev es1 entry1.next entry1.prev
    let last1 := if c.last = index then entry1.prev else c.last
    let entry2 := { entry1 with next := c.first, prev := last1 }
    let es3 ← setPrev es2 entry2.next index
    let es4 ← setNext es3 entry2.prev index
    let es5 ← setEntry es4 index entry2
    some { c with
      entries := es5
      first := index
      last := last1
      memoryBytes := c.memoryBytes + deltaSize }
  | none =>
    let c := { c with entriesAddedNew := c.entriesAddedNew + 1 }
    if c.entries.length ≥ c.size then do
      let c := { c with entriesEvicted := c.entriesEvicted + 1 }
      let index := c.last
      let entry0 ← c.entries.get? index
      let deltaSize := sizeOfKey key + sizeOfValue value
        - sizeOfKey entry0.key - sizeOfValue entry0.value
      let entry1 := { entry0 with updated := now, value := value, key := key }
      let es1 ← setEntry c.entries index entry1
      some { c with
        entries := es1
        index := mapInsert (mapDelete c.index entry0.key) key index
        first := index
        last := entry0.prev
        memoryBytes := c.memoryBytes + deltaSize }
    else do
      let index := c.entries.length
      let es0 := c.entries ++
        [{ updated := now, key := key, value := value, prev := c.last, next := c.first }]
      let es1 ← setPrev es0 c.first index
      let es2 ← setNext es1 c.last index
      some { c with
        entries := es2
        index := mapInsert c.index key index
        first := index
        memoryBytes := c.memoryBytes + sizeOfKey key + sizeOfValue value
        entriesCurrent := c.entriesCurrent + 1 }

/-- The loop body of `Put`: `for i := range keys { c.put(keys[i], values[i]) }`.
`values[i]` out of bounds is a panic (`none`). -/
def FifoCache.putLoop : FifoCache → List String → List GoValue → Int → Option FifoCache
  | c, [], _, _ => some c
  | c, key :: keys, values, now => do
    let v ← values.head?
    let c' ← c.put key v now
    FifoCache.putLoop c' keys values.tail now

/-- `(c *FifoCache) Put(ctx, keys, values)` from the source: bump the
added counter, bypass on `size == 0`, otherwise run the loop. -/
def FifoCache.Put (c : FifoCache) (keys : List String) (values : List GoValue)
    (now : Int) : Option FifoCache :=
  let c := { c with entriesAdded := c.entriesAdded + 1 }
  if c.size = 0 then some c
  else c.putLoop keys values now

/-- `(c *FifoCache) Get(ctx, key)` from the source. Returns the value,
the found flag, and the cache with its counters updated; `none` is a
panic. -/
def FifoCache.Get (c : FifoCache) (key : String) (now : Int) :
    Option (Option GoValue × Bool × FifoCache) :=
  let c := { c with totalGets := c.totalGets + 1 }
  if c.size = 0 then some (none, false, c)
  else
    match mapLookup c.index key with
    | some index =>
      match c.entries.get? index with
      | none => none
      | some e =>
        if c.validity = 0 ∨ now - e.updated < c.validity then
          some (some e.value, true, c)
        else
          some (none, false,
            { c with totalMisses := c.totalMisses + 1, staleGets := c.staleGets + 1 })
    | none => some (none, false, { c with totalMisses := c.totalMisses + 1 })

/-- `(c *FifoCache) Fetch(ctx, keys)`: a `Get` per key, partitioning
into found/bufs/missing in input order; a hit whose value fails the
`val.([]byte)` assertion is a panic (`none`). -/
def FifoCache.Fetch (c : FifoCache) (keys : List String) (now : Int) :
    Option (List String × List (List Nat) × List String × FifoCache) :=
  match keys with
  | [] => some ([], [], [], c)
  | key :: rest => do
    let (val, ok, c1) ← c.Get key now
    if ok then
      match val with
      | some (GoValue.bytes bs) => do
        let (found, bufs, missing, c2) ← c1.Fetch rest now
        some (key :: found, bs :: bufs, missing, c2)
      | _ => none
    else do
      let (found, bufs, missing, c2) ← c1.Fetch rest now
      some (found, bufs, key :: missing, c2)

/-- `(c *FifoCache) Store(ctx, keys, bufs)`: wrap the byte buffers and
call `Put`. -/
def FifoCache.Store (c : FifoCache) (keys : List String) (bufs : List (List Nat))
    (now : Int) : Option FifoCache :=
  c.Put keys (bufs.map GoValue.bytes) now

/-- `(c *FifoCache) Stop()` does nothing. -/
def FifoCache.Stop (c : FifoCache) : FifoCache := c

/-- The value-and-found part of a `Get`, dropping the counter-updated
state. -/
def getVB (c : FifoCache) (key : String) (now : Int) : Option (Option GoValue × Bool) :=
  (c.Get key now).map (fun r => (r.1, r.2.1))

/-- The `next` index stored at slot `i` (0 out of bounds). -/
def nextOf (c : FifoCache) (i : Nat) : Nat :=
  ((c.entries.get? i).map cacheEntry.next).getD 0

/-- The `prev` index stored at slot `i` (0 out of bounds). -/
def prevOf (c : FifoCache) (i : Nat) : Nat :=
  ((c.entries.get? i).map cacheEntry.prev).getD 0

/-- Follow `next` links `n` times starting at slot `i`. -/
def walkNext (c : FifoCache) : Nat → Nat → Nat
  | i, 0 => i
  | i, n + 1 => walkNext c (nextOf c i) n

/-- The slots visited following `next` links from `i`, `n` of them. -/
def ringTrace (c : FifoCache) : Nat → Nat → List Nat
  | _, 0 => []
  | i, n + 1 => i :: ringTrace c (nextOf c i) n

/-- The spec's ring invariant: the occupied slots form exactly one
circular doubly-linked list through `prev`/`next`, with `first`/`last`
valid indices into it — walking `next` from `first` visits every slot
and returns to `first` after one full turn, `prev` is the inverse of
`next`, and `last` is the slot before `first`. -/
def ringWellFormed (c : FifoCache) : Prop :=
  c.entries.length = 0 ∨
    (c.first < c.entries.length ∧ c.last < c.entries.length ∧
      walkNext c c.first c.entries.length = c.first ∧
      (∀ j, j < c.entries.length → j ∈ ringTrace c c.first c.entries.length) ∧
      (∀ j, j < c.entries.length →
        prevOf c (nextOf c j) = j ∧ nextOf c (prevOf c j) = j) ∧
      nextOf c c.last = c.first ∧ prevOf c c.first = c.last)

instance (c : FifoCache) : Decidable (ringWellFormed c) := by
  unfold ringWellFormed; infer_instance

/-- Bounds invariant: entry count within capacity, ring pointers and
stored links in range, and every index-map slot in range. -/
def WellIndexed (c : FifoCache) : Prop :=
  c.entries.length ≤ c.size ∧
  (c.entries.length = 0 → c.first = 0 ∧ c.last = 0) ∧
  (0 < c.entries.length →
    c.first < c.entries.length ∧ c.last < c.entries.length) ∧
  (∀ e ∈ c.entries, e.prev < c.entries.length ∧ e.next < c.entries.length) ∧
  (∀ p ∈ c.index, p.2 < c.entries.length)

/-- Cache states reachable through the public interface (`Fetch` is a
sequence of `Get`s and `Store` a `Put`, so these two step rules cover
all five exported operations). -/
inductive Reachable : FifoCache → Prop where
  | new : ∀ (size : Nat) (validity : Int), Reachable (NewFifoCache size validity)
  | put : ∀ c keys values now c', Reachable c →
      FifoCache.Put c keys values now = some c' → Reachable c'
  | get : ∀ c key now r, Reachable c →
      FifoCache.Get c key now = some r → Reachable r.2.2

/-- Pure observation of what a `Get` would answer: `some v` on a hit,
`none` on a miss (absent key, stale entry, or zero capacity). -/
def getPure (c : FifoCache) (key : String) (now : Int) : Option GoValue :=
  if c.size = 0 then none
  else
    match mapLookup c.index key with
    | some index =>
      match c.entries.get? index with
      | none => none
      | some e =>
        if c.validity = 0 ∨ now - e.updated < c.validity then some e.value else none
    | none => none





/-- Run a sequence of single-key `Put` calls (key, value, write time),
propagating a panic. -/
def putEach : Option FifoCache → List (String × GoValue × Int) → Option FifoCache
  | oc, [] => oc
  | oc, (k, v, t) :: rest => putEach (oc.bind (fun c => c.Put [k] [v] t)) rest

/-- State of a capacity-2 cache after `put a; put b`. -/
def cacheAB : FifoCache :=
  (putEach (some (NewFifoCache 2 0))
    [("a", GoValue.bytes [1], 0), ("b", GoValue.bytes [2], 1)]).getD (NewFifoCache 0 0)

/-- State of a capacity-2 cache after `put a; put b; put b` — the third
put updates the key at the head of the ring. -/
def cacheABB : FifoCache :=
  (putEach (some (NewFifoCache 2 0))
    [("a", GoValue.bytes [1], 0), ("b", GoValue.bytes [2], 1),
     ("b", GoValue.bytes [2], 2)]).getD (NewFifoCache 0 0)

/-- State of a capacity-2 cache after `put a; put b; put b; put a; put c`. -/
def cacheABBAC : FifoCache :=
  (putEach (some (NewFifoCache 2 0))
    [("a", GoValue.bytes [1], 0), ("b", GoValue.bytes [2], 1),
     ("b", GoValue.bytes [2], 2), ("a", GoValue.bytes [1], 3),
     ("c", GoValue.bytes [3], 4)]).getD (NewFifoCache 0 0)

/-- A capacity-1, validity-10 cache holding key `k` written at time 0. -/
def cacheV : FifoCache :=
  (FifoCache.Put (NewFifoCache 1 10) ["k"] [GoValue.bytes [9]] 0).getD (NewFifoCache 0 0)

/-- A capacity-0 cache after one (no-op) put. -/
def cacheZeroOne : FifoCache :=
  (FifoCache.Put (NewFifoCache 0 0) ["k"] [GoValue.bytes [7]] 0).getD (NewFifoCache 1 1)

/-- The concrete result of `Get a` on the two-entry cache. -/
def cacheABGetA : Option GoValue × Bool × FifoCache :=
  (cacheAB.Get "a" 0).getD (none, false, NewFifoCache 0 0)

/-- A capacity-1 cache whose single entry holds a non-byte-slice value
(`Put` accepts any `interface{}` value). -/
def cacheStr : FifoCache :=
  (FifoCache.Put (NewFifoCache 1 0) ["k"] [GoValue.str "s"] 0).getD (NewFifoCache 0 0)

/-- The two-entry cache is reachable. -/
def cacheA : FifoCache :=
  (FifoCache.Put (NewFifoCache 2 0) ["a"] [GoValue.bytes [1]] 0).getD (NewFifoCache 0 0)

/-- A full capacity-1 cache holding `a`. -/
def cacheFull1 : FifoCache :=
  (FifoCache.Put (NewFifoCache 1 0) ["a"] [GoValue.bytes [1]] 0).getD (NewFifoCache 0 0)

/-- The byte buffer a `Fetch` would extract for a key: present exactly
when the key hits and its stored value is a byte slice. -/
def hitBytes (c : FifoCache) (key : String) (now : Int) : Option (List Nat) :=
  match getPure c key now with
  | some (GoValue.bytes bs) => some bs
  | _ => none

/-- Equality of the fields of two cache states that `Get`/`getPure`
read (everything but the counters). -/
def coreEq (c0 c : FifoCache) : Prop :=
  c.size = c0.size ∧ c.validity = c0.validity ∧ c.entries = c0.entries ∧
  c.index = c0.index ∧ c.first = c0.first ∧ c.last = c0.last

/-- Run `n` single-key `Put` calls with keys `k 0 .. k (n-1)`, values
`v i`, and write times `ts i`, in order. -/
def putSeqN (k : Nat → String) (v : Nat → GoValue) (ts : Nat → Int)
    (c : FifoCache) : Nat → Option FifoCache
  | 0 => some c
  | n + 1 =>
    match putSeqN k v ts c n with
    | some c' => c'.Put [k n] [v n] (ts n)
    | none => none

/-- The index map after `n` first-time appends: key `k j` at slot `j`. -/
def rangeIndex (k : Nat → String) (n : Nat) : List (String × Nat) :=
  (List.range n).map (fun j => (k j, j))

/-- The state after `n` first-time puts of distinct keys into a fresh
cache: `n` slots in insertion order, the index map `k j ↦ j`, `last` at
slot 0 and `first` at slot `n - 1`. -/
def FreshRun (S : Nat) (D : Int) (k : Nat → String) (v : Nat → GoValue)
    (ts : Nat → Int) (n : Nat) (c : FifoCache) : Prop :=
  c.size = S ∧ c.validity = D ∧ c.entries.length = n ∧
  c.index = rangeIndex k n ∧ c.last = 0 ∧ c.first = n - 1 ∧
  (∀ j, j < n → ∃ e, c.entries.get? j = some e ∧
    e.key = k j ∧ e.value = v j ∧ e.updated = ts j)

/-- Keys for the concrete C3 run. -/
def w3k : Nat → String := fun j => if j = 0 then "a" else if j = 1 then "b" else "c"

/-- Values for the concrete C3 run. -/
def w3v : Nat → GoValue := fun j => GoValue.bytes [j]

/-- Write times for the concrete C3 run. -/
def w3t : Nat → Int := fun j => j

/-- C1: the ring invariant survives the two first-time puts but is
destroyed by the update of the key at the head: afterwards the head
slot's `next` points to itself, so slot 0 is no longer on the list. -/
theorem c1_head_update_breaks_ring :
    putEach (some (NewFifoCache 2 0))
      [("a", GoValue.bytes [1], 0), ("b", GoValue.bytes [2], 1),
       ("b", GoValue.bytes [2], 2)] = some cacheABB ∧
    ringWellFormed cacheAB ∧
    ¬ ringWellFormed cacheABB := by
  refine ⟨rfl, by decide, by decide⟩

/-- C2: after `put a; put b; put b; put a` on a capacity-2 cache, `a` is
the most recently re-written key, yet the very next first-time put
(`put c`) evicts `a` while the less recently written `b` survives — a
refreshed key is chosen as the eviction victim before an older one. -/
theorem c2_refreshed_key_evicted_before_older :
    putEach (some (NewFifoCache 2 0))
      [("a", GoValue.bytes [1], 0), ("b", GoValue.bytes [2], 1),
       ("b", GoValue.bytes [2], 2), ("a", GoValue.bytes [1], 3),
       ("c", GoValue.bytes [3], 4)] = some cacheABBAC ∧
    getVB cacheABBAC "a" 5 = some (none, false) ∧
    getVB cacheABBAC "b" 5 = some (some (GoValue.bytes [2]), true) := by
  refine ⟨rfl, rfl, rfl⟩

theorem mapLookup_append (m1 m2 : List (String × Nat)) (k : String) :
    mapLookup (m1 ++ m2) k =
      match mapLookup m1 k with
      | some i => some i
      | none => mapLookup m2 k := by
  induction m1 with
  | nil => simp [mapLookup]
  | cons p rest ih =>
    obtain ⟨k0, i0⟩ := p
    by_cases h : k0 = k <;> simp [mapLookup, h, ih]

theorem mapLookup_insert_self (m : List (String × Nat)) (k : String) (i : Nat) :
    mapLookup (mapInsert m k i) k = some i := by
  induction m with
  | nil => simp [mapInsert, mapLookup]
  | cons p rest ih =>
    obtain ⟨k0, i0⟩ := p
    by_cases h : k0 = k <;> simp [mapInsert, mapLookup, h, ih]

theorem mapLookup_insert_ne (m : List (String × Nat)) (k k' : String) (i : Nat)
    (h : k' ≠ k) : mapLookup (mapInsert m k i) k' = mapLookup m k' := by
  have hkk : k ≠ k' := Ne.symm h
  induction m with
  | nil => simp [mapInsert, mapLookup, hkk]
  | cons p rest ih =>
    obtain ⟨k0, i0⟩ := p
    by_cases h0 : k0 = k
    · subst h0
      simp [mapInsert, mapLookup, hkk]
    · simp [mapInsert, mapLookup, h0, ih]

theorem mapInsert_of_lookup_none (m : List (String × Nat)) (k : String) (i : Nat)
    (h : mapLookup m k = none) : mapInsert m k i = m ++ [(k, i)] := by
  induction m with
  | nil => simp [mapInsert]
  | cons p rest ih =>
    obtain ⟨k0, i0⟩ := p
    by_cases h0 : k0 = k
    · simp [mapLookup, h0] at h
    · simp [mapLookup, h0] at h
      simp [mapInsert, h0, ih h]

theorem mapDelete_cons (k0 : String) (i0 : Nat) (rest : List (String × Nat))
    (k : String) :
    mapDelete ((k0, i0) :: rest) k =
      if k0 = k then mapDelete rest k else (k0, i0) :: mapDelete rest k := by
  by_cases h : k0 = k <;> simp [mapDelete, List.filter_cons, h]

theorem mapLookup_delete_self (m : List (String × Nat)) (k : String) :
    mapLookup (mapDelete m k) k = none := by
  induction m with
  | nil => simp [mapDelete, mapLookup]
  | cons p rest ih =>
    obtain ⟨k0, i0⟩ := p
    rw [mapDelete_cons]
    by_cases h : k0 = k
    · simp [h, ih]
    · simp [h, mapLookup, ih]

theorem mapLookup_delete_ne (m : List (String × Nat)) (k k' : String)
    (h : k' ≠ k) : mapLookup (mapDelete m k) k' = mapLookup m k' := by
  induction m with
  | nil => simp [mapDelete, mapLookup]
  | cons p rest ih =>
    obtain ⟨k0, i0⟩ := p
    rw [mapDelete_cons]
    by_cases h0 : k0 = k
    · subst h0
      simp [mapLookup, Ne.symm h, ih]
    · simp [mapLookup, h0, ih]

theorem mapLookup_mem (m : List (String × Nat)) (k : String) (i : Nat)
    (h : mapLookup m k = some i) : (k, i) ∈ m := by
  induction m with
  | nil => simp [mapLookup] at h
  | cons p rest ih =>
    obtain ⟨k0, i0⟩ := p
    by_cases h0 : k0 = k
    · subst h0; simp [mapLookup] at h; simp [h]
    · simp [mapLookup, h0] at h
      exact List.mem_cons_of_mem _ (ih h)

theorem mem_mapInsert (m : List (String × Nat)) (k : String) (i : Nat) (p : String × Nat)
    (h : p ∈ mapInsert m k i) : p ∈ m ∨ p = (k, i) := by
  induction m with
  | nil => simp [mapInsert] at h; simp [h]
  | cons q rest ih =>
    obtain ⟨k0, i0⟩ := q
    by_cases h0 : k0 = k
    · subst h0
      simp [mapInsert] at h
      rcases h with h | h
      · exact Or.inr (by simp [h])
      · exact Or.inl (List.mem_cons_of_mem _ h)
    · simp [mapInsert, h0] at h
      rcases h with h | h
      · exact Or.inl (by simp [h])
      · rcases ih h with h' | h'
        · exact Or.inl (List.mem_cons_of_mem _ h')
        · exact Or.inr h'

theorem mem_mapDelete (m : List (String × Nat)) (k : String) (p : String × Nat)
    (h : p ∈ mapDelete m k) : p ∈ m :=
  List.mem_of_mem_filter h

theorem setEntry_eq_some (es : List cacheEntry) (i : Nat) (e : cacheEntry)
    (h : i < es.length) : ∃ es', setEntry es i e = some es' := by
  induction es generalizing i with
  | nil => simp at h
  | cons x rest ih =>
    cases i with
    | zero => exact ⟨e :: rest, rfl⟩
    | succ n =>
      obtain ⟨es', h'⟩ := ih n (by simpa using h)
      exact ⟨x :: es', by simp [setEntry, h']⟩

theorem setEntry_length (es : List cacheEntry) (i : Nat) (e : cacheEntry)
    (es' : List cacheEntry) (h : setEntry es i e = some es') :
    es'.length = es.length := by
  induction es generalizing i es' with
  | nil => simp [setEntry] at h
  | cons x rest ih =>
    cases i with
    | zero =>
      simp [setEntry] at h
      simp [← h]
    | succ n =>
      simp [setEntry] at h
      obtain ⟨es'', h1, h2⟩ := h
      simp [← h2, ih n es'' h1]

theorem setEntry_get? (es : List cacheEntry) (i : Nat) (e : cacheEntry)
    (es' : List cacheEntry) (h : setEntry es i e = some es') (j : Nat) :
    es'.get? j = if j = i then some e else es.get? j := by
  induction es generalizing i j es' with
  | nil => simp [setEntry] at h
  | cons x rest ih =>
    cases i with
    | zero =>
      simp [setEntry] at h
      cases j with
      | zero => simp [← h]
      | succ m => simp [← h]
    | succ n =>
      simp [setEntry] at h
      obtain ⟨es'', h1, h2⟩ := h
      cases j with
      | zero => simp [← h2]
      | succ m =>
        rw [← h2]
        simpa using ih n es'' h1 m

theorem setEntry_mem (es : List cacheEntry) (i : Nat) (e : cacheEntry)
    (es' : List cacheEntry) (h : setEntry es i e = some es') :
    ∀ x ∈ es', x ∈ es ∨ x = e := by
  induction es generalizing i es' with
  | nil => simp [setEntry] at h
  | cons y rest ih =>
    cases i with
    | zero =>
      simp [setEntry] at h
      intro x hx
      rw [← h] at hx
      rcases List.mem_cons.mp hx with h' | h'
      · exact Or.inr h'
      · exact Or.inl (List.mem_cons_of_mem _ h')
    | succ n =>
      simp [setEntry] at h
      obtain ⟨es'', h1, h2⟩ := h
      intro x hx
      rw [← h2] at hx
      rcases List.mem_cons.mp hx with h' | h'
      · exact Or.inl (by simp [h'])
      · rcases ih n es'' h1 x h' with h'' | h''
        · exact Or.inl (List.mem_cons_of_mem _ h'')
        · exact Or.inr h''

theorem get?_eq_some_of_lt (es : List cacheEntry) (i : Nat) (h : i < es.length) :
    ∃ e, es.get? i = some e := by
  induction es generalizing i with
  | nil => simp at h
  | cons x rest ih =>
    cases i with
    | zero => exact ⟨x, rfl⟩
    | succ n => simpa using ih n (by simpa using h)

theorem setPrev_eq_some (es : List cacheEntry) (i p : Nat) (h : i < es.length) :
    ∃ es', setPrev es i p = some es' ∧ es'.length = es.length ∧
      ∀ j, es'.get? j =
        if j = i then (es.get? i).map (fun e => { e with prev := p }) else es.get? j := by
  obtain ⟨e, he⟩ := get?_eq_some_of_lt es i h
  obtain ⟨es', hs⟩ := setEntry_eq_some es i { e with prev := p } h
  refine ⟨es', ?_, setEntry_length _ _ _ _ hs, fun j => ?_⟩
  · unfold setPrev
    rw [he]
    exact hs
  · rw [setEntry_get? _ _ _ _ hs j, he]
    rfl

theorem setNext_eq_some (es : List cacheEntry) (i n : Nat) (h : i < es.length) :
    ∃ es', setNext es i n = some es' ∧ es'.length = es.length ∧
      ∀ j, es'.get? j =
        if j = i then (es.get? i).map (fun e => { e with next := n }) else es.get? j := by
  obtain ⟨e, he⟩ := get?_eq_some_of_lt es i h
  obtain ⟨es', hs⟩ := setEntry_eq_some es i { e with next := n } h
  refine ⟨es', ?_, setEntry_length _ _ _ _ hs, fun j => ?_⟩
  · unfold setNext
    rw [he]
    exact hs
  · rw [setEntry_get? _ _ _ _ hs j, he]
    rfl

theorem setPrev_mem (es : List cacheEntry) (i p : Nat) (es' : List cacheEntry)
    (h : setPrev es i p = some es') :
    ∀ x ∈ es', (x ∈ es ∨ ∃ e ∈ es, x = { e with prev := p }) := by
  unfold setPrev at h
  cases he : es.get? i with
  | none => rw [he] at h; simp at h
  | some e =>
    rw [he] at h
    intro x hx
    rcases setEntry_mem es i _ es' h x hx with h' | h'
    · exact Or.inl h'
    · exact Or.inr ⟨e, List.get?_mem he, h'⟩

theorem setNext_mem (es : List cacheEntry) (i n : Nat) (es' : List cacheEntry)
    (h : setNext es i n = some es') :
    ∀ x ∈ es', (x ∈ es ∨ ∃ e ∈ es, x = { e with next := n }) := by
  unfold setNext at h
  cases he : es.get? i with
  | none => rw [he] at h; simp at h
  | some e =>
    rw [he] at h
    intro x hx
    rcases setEntry_mem es i _ es' h x hx with h' | h'
    · exact Or.inl h'
    · exact Or.inr ⟨e, List.get?_mem he, h'⟩

theorem WellIndexed.firstLast (hwi : WellIndexed c) (h : 0 < c.entries.length) :
    c.first < c.entries.length ∧ c.last < c.entries.length :=
  hwi.2.2.1 h

/-- Update branch of `put` (the key is already indexed): it succeeds,
preserves the bounds invariant, the index map, and the entry count, and
leaves the new value and timestamp in the key's slot. -/
theorem put_update_spec (c : FifoCache) (key : String) (value : GoValue) (now : Int)
    (idx : Nat) (hwi : WellIndexed c) (hl : mapLookup c.index key = some idx) :
    ∃ c', c.put key value now = some c' ∧ WellIndexed c' ∧
      c'.size = c.size ∧ c'.validity = c.validity ∧ c'.index = c.index ∧
      c'.entries.length = c.entries.length ∧
      (∃ e', c'.entries.get? idx = some e' ∧ e'.value = value ∧ e'.updated = now) := by
  obtain ⟨hcap, hzero, hpos, hents, hidx⟩ := hwi
  have hix : idx < c.entries.length := hidx (key, idx) (mapLookup_mem _ _ _ hl)
  have hlen0 : 0 < c.entries.length := Nat.lt_of_le_of_lt (Nat.zero_le idx) hix
  have hf : c.first < c.entries.length := (hpos hlen0).1
  have hla : c.last < c.entries.length := (hpos hlen0).2
  obtain ⟨e0, he0⟩ := get?_eq_some_of_lt c.entries idx hix
  have he0mem : e0 ∈ c.entries := List.get?_mem he0
  have hb0 : e0.prev < c.entries.length ∧ e0.next < c.entries.length := hents e0 he0mem
  obtain ⟨es1, hes1, hlen1, hget1⟩ := setNext_eq_some c.entries e0.prev e0.next hb0.1
  obtain ⟨es2, hes2, hlen2, hget2⟩ :=
    setPrev_eq_some es1 e0.next e0.prev (by rw [hlen1]; exact hb0.2)
  have hlen2' : es2.length = c.entries.length := by rw [hlen2, hlen1]
  have hlast1 : (if c.last = idx then e0.prev else c.last) < c.entries.length := by
    by_cases h : c.last = idx <;> simp [h, hb0.1, hla]
  obtain ⟨es3, hes3, hlen3, hget3⟩ :=
    setPrev_eq_some es2 c.first idx (by rw [hlen2']; exact hf)
  have hlen3' : es3.length = c.entries.length := by rw [hlen3, hlen2']
  obtain ⟨es4, hes4, hlen4, hget4⟩ :=
    setNext_eq_some es3 (if c.last = idx then e0.prev else c.last) idx
      (by rw [hlen3']; exact hlast1)
  have hlen4' : es4.length = c.entries.length := by rw [hlen4, hlen3']
  obtain ⟨es5, hes5⟩ := setEntry_eq_some es4 idx
    { updated := now, key := e0.key, value := value,
      prev := if c.last = idx then e0.prev else c.last, next := c.first }
    (by rw [hlen4']; exact hix)
  have hlen5 : es5.length = c.entries.length := by
    rw [setEntry_length _ _ _ _ hes5, hlen4']
  have hB1 : ∀ e ∈ es1, e.prev < c.entries.length ∧ e.next < c.entries.length := by
    intro e he
    rcases setNext_mem _ _ _ _ hes1 e he with h | ⟨e'', hmem, rfl⟩
    · exact hents e h
    · exact ⟨(hents e'' hmem).1, hb0.2⟩
  have hB2 : ∀ e ∈ es2, e.prev < c.entries.length ∧ e.next < c.entries.length := by
    intro e he
    rcases setPrev_mem _ _ _ _ hes2 e he with h | ⟨e'', hmem, rfl⟩
    · exact hB1 e h
    · exact ⟨hb0.1, (hB1 e'' hmem).2⟩
  have hB3 : ∀ e ∈ es3, e.prev < c.entries.length ∧ e.next < c.entries.length := by
    intro e he
    rcases setPrev_mem _ _ _ _ hes3 e he with h | ⟨e'', hmem, rfl⟩
    · exact hB2 e h
    · exact ⟨hix, (hB2 e'' hmem).2⟩
  have hB4 : ∀ e ∈ es4, e.prev < c.entries.length ∧ e.next < c.entries.length := by
    intro e he
    rcases setNext_mem _ _ _ _ hes4 e he with h | ⟨e'', hmem, rfl⟩
    · exact hB3 e h
    · exact ⟨(hB3 e'' hmem).1, hix⟩
  have hB5 : ∀ e ∈ es5, e.prev < c.entries.length ∧ e.next < c.entries.length := by
    intro e he
    rcases setEntry_mem _ _ _ _ hes5 e he with h | rfl
    · exact hB4 e h
    · exact ⟨hlast1, hf⟩
  refine ⟨{ c with
      entries := es5
      first := idx
      last := if c.last = idx then e0.prev else c.last
      memoryBytes := c.memoryBytes + (sizeOfValue value - sizeOfValue e0.value) },
    ?_, ?_, rfl, rfl, rfl, hlen5, ?_⟩
  · simp only [FifoCache.put, hl, he0, Option.some_bind, Option.bind_eq_bind]
    simp only [hes1, Option.some_bind, hes2, hes3, hes4, hes5]
  · refine ⟨by rw [hlen5]; exact hcap, ?_, ?_, ?_, ?_⟩
    · intro h
      rw [hlen5] at h
      exact absurd h (by omega)
    · intro _
      rw [hlen5]
      exact ⟨hix, hlast1⟩
    · intro e he
      rw [hlen5]
      exact hB5 e he
    · intro p hp
      rw [hlen5]
      exact hidx p hp
  · refine ⟨{ updated := now
              key := e0.key
              value := value
              prev := if c.last = idx then e0.prev else c.last
              next := c.first }, ?_, rfl, rfl⟩
    rw [setEntry_get? _ _ _ _ hes5 idx]
    simp

theorem setPrev_get?_kvu (es : List cacheEntry) (i p : Nat) (es' : List cacheEntry)
    (h : setPrev es i p = some es') (j : Nat) :
    (es'.get? j).map (fun e => (e.key, e.value, e.updated)) =
      (es.get? j).map (fun e => (e.key, e.value, e.updated)) := by
  unfold setPrev at h
  cases he : es.get? i with
  | none => rw [he] at h; simp at h
  | some e =>
    rw [he] at h
    rw [setEntry_get? _ _ _ _ h j]
    by_cases hj : j = i
    · subst hj
      rw [he]
      simp
    · simp [hj]

theorem setNext_get?_kvu (es : List cacheEntry) (i n : Nat) (es' : List cacheEntry)
    (h : setNext es i n = some es') (j : Nat) :
    (es'.get? j).map (fun e => (e.key, e.value, e.updated)) =
      (es.get? j).map (fun e => (e.key, e.value, e.updated)) := by
  unfold setNext at h
  cases he : es.get? i with
  | none => rw [he] at h; simp at h
  | some e =>
    rw [he] at h
    rw [setEntry_get? _ _ _ _ h j]
    by_cases hj : j = i
    · subst hj
      rw [he]
      simp
    · simp [hj]

/-- Evict-and-reuse branch of `put` (key absent, cache full): it
succeeds, reuses the slot indexed by `last`, removes the old key from
the index and adds the new one at that slot, moves `last` back and
`first` onto the reused slot, and preserves every other slot. -/
theorem put_evict_spec (c : FifoCache) (key : String) (value : GoValue) (now : Int)
    (hwi : WellIndexed c) (hl : mapLookup c.index key = none)
    (hge : c.size ≤ c.entries.length) (hsz : 0 < c.size) :
    ∃ c' e0, c.entries.get? c.last = some e0 ∧ c.put key value now = some c' ∧
      WellIndexed c' ∧ c'.size = c.size ∧ c'.validity = c.validity ∧
      c'.entries.length = c.entries.length ∧
      c'.index = mapInsert (mapDelete c.index e0.key) key c.last ∧
      c'.first = c.last ∧ c'.last = e0.prev ∧
      c'.entries.get? c.last =
        some { updated := now, key := key, value := value, prev := e0.prev, next := e0.next } ∧
      (∀ j, j ≠ c.last → c'.entries.get? j = c.entries.get? j) := by
  obtain ⟨hcap, hzero, hpos, hents, hidx⟩ := hwi
  have hlen0 : 0 < c.entries.length := Nat.lt_of_lt_of_le hsz hge
  have hla : c.last < c.entries.length := (hpos hlen0).2
  obtain ⟨e0, he0⟩ := get?_eq_some_of_lt c.entries c.last hla
  have he0mem : e0 ∈ c.entries := List.get?_mem he0
  have hb0 : e0.prev < c.entries.length ∧ e0.next < c.entries.length := hents e0 he0mem
  obtain ⟨es1, hes1⟩ := setEntry_eq_some c.entries c.last
    { updated := now, key := key, value := value, prev := e0.prev, next := e0.next } hla
  have hlen1 : es1.length = c.entries.length := setEntry_length _ _ _ _ hes1
  refine ⟨{ c with
      entriesAddedNew := c.entriesAddedNew + 1
      entriesEvicted := c.entriesEvicted + 1
      entries := es1
      index := mapInsert (mapDelete c.index e0.key) key c.last
      first := c.last
      last := e0.prev
      memoryBytes := c.memoryBytes + (sizeOfKey key + sizeOfValue value
        - sizeOfKey e0.key - sizeOfValue e0.value) },
    e0, he0, ?_, ?_, rfl, rfl, hlen1, rfl, rfl, rfl, ?_, ?_⟩
  · simp only [FifoCache.put, hl, ge_iff_le, hge, if_true, he0, Option.some_bind,
      Option.bind_eq_bind, hes1]
  · refine ⟨by rw [hlen1]; exact hcap, ?_, ?_, ?_, ?_⟩
    · intro h
      rw [hlen1] at h
      exact absurd h (by omega)
    · intro _
      rw [hlen1]
      exact ⟨hla, hb0.1⟩
    · intro e he
      rw [hlen1]
      rcases setEntry_mem _ _ _ _ hes1 e he with h | rfl
      · exact hents e h
      · exact ⟨hb0.1, hb0.2⟩
    · intro p hp
      rw [hlen1]
      rcases mem_mapInsert _ _ _ _ hp with h | rfl
      · exact hidx p (mem_mapDelete _ _ _ h)
      · exact hla
  · rw [setEntry_get? _ _ _ _ hes1 c.last]
    simp
  · intro j hj
    rw [setEntry_get? _ _ _ _ hes1 j]
    simp [hj]

/-- Append branch of `put` (key absent, spare capacity): it succeeds,
grows the entry array by one, indexes the key at the new slot, makes the
new slot `first`, keeps `last`, and preserves key/value/timestamp at
every old slot. -/
theorem put_append_spec (c : FifoCache) (key : String) (value : GoValue) (now : Int)
    (hwi : WellIndexed c) (hl : mapLookup c.index key = none)
    (hlt : c.entries.length < c.size) :
    ∃ c', c.put key value now = some c' ∧ WellIndexed c' ∧
      c'.size = c.size ∧ c'.validity = c.validity ∧
      c'.entries.length = c.entries.length + 1 ∧
      c'.index = mapInsert c.index key c.entries.length ∧
      c'.first = c.entries.length ∧ c'.last = c.last ∧
      (∃ e', c'.entries.get? c.entries.length = some e' ∧
        e'.key = key ∧ e'.value = value ∧ e'.updated = now) ∧
      (∀ j, (c'.entries.get? j).map (fun e => (e.key, e.value, e.updated)) =
        ((c.entries ++ [({ updated := now, key := key, value := value, prev := c.last, next := c.first } : cacheEntry)]).get? j).map
            (fun e => (e.key, e.value, e.updated))) := by
  obtain ⟨hcap, hzero, hpos, hents, hidx⟩ := hwi
  have hf1 : c.first < c.entries.length + 1 := by
    rcases Nat.eq_zero_or_pos c.entries.length with h | h
    · rw [(hzero h).1]
      omega
    · exact Nat.lt_succ_of_lt (hpos h).1
  have hla1 : c.last < c.entries.length + 1 := by
    rcases Nat.eq_zero_or_pos c.entries.length with h | h
    · rw [(hzero h).2]
      omega
    · exact Nat.lt_succ_of_lt (hpos h).2
  have hlen0 : (c.entries ++ [({ updated := now, key := key, value := value, prev := c.last, next := c.first } : cacheEntry)]).length = c.entries.length + 1 := by simp
  obtain ⟨es1, hes1, hlen1, hget1⟩ := setPrev_eq_some
    (c.entries ++ [{ updated := now, key := key, value := value, prev := c.last, next := c.first }]) c.first c.entries.length
    (by rw [hlen0]; exact hf1)
  have hlen1' : es1.length = c.entries.length + 1 := by rw [hlen1, hlen0]
  obtain ⟨es2, hes2, hlen2, hget2⟩ := setNext_eq_some es1 c.last c.entries.length
    (by rw [hlen1']; exact hla1)
  have hlen2' : es2.length = c.entries.length + 1 := by rw [hlen2, hlen1']
  have hkvu : ∀ j, (es2.get? j).map (fun e => (e.key, e.value, e.updated)) =
      ((c.entries ++ [({ updated := now, key := key, value := value, prev := c.last, next := c.first } : cacheEntry)]).get? j).map
          (fun e => (e.key, e.value, e.updated)) := by
    intro j
    rw [setNext_get?_kvu _ _ _ _ hes2 j, setPrev_get?_kvu _ _ _ _ hes1 j]
  have hB0 : ∀ e ∈ c.entries ++ [({ updated := now, key := key, value := value, prev := c.last, next := c.first } : cacheEntry)],
      e.prev < c.entries.length + 1 ∧ e.next < c.entries.length + 1 := by
    intro e he
    rcases List.mem_append.mp he with h | h
    · have := hents e h
      omega
    · simp at h
      rw [h]
      exact ⟨hla1, hf1⟩
  have hB1 : ∀ e ∈ es1, e.prev < c.entries.length + 1 ∧ e.next < c.entries.length + 1 := by
    intro e he
    rcases setPrev_mem _ _ _ _ hes1 e he with h | ⟨e'', hmem, rfl⟩
    · exact hB0 e h
    · exact ⟨Nat.lt_succ_self _, (hB0 e'' hmem).2⟩
  have hB2 : ∀ e ∈ es2, e.prev < c.entries.length + 1 ∧ e.next < c.entries.length + 1 := by
    intro e he
    rcases setNext_mem _ _ _ _ hes2 e he with h | ⟨e'', hmem, rfl⟩
    · exact hB1 e h
    · exact ⟨(hB1 e'' hmem).1, Nat.lt_succ_self _⟩
  refine ⟨{ c with
      entriesAddedNew := c.entriesAddedNew + 1
      entries := es2
      index := mapInsert c.index key c.entries.length
      first := c.entries.length
      memoryBytes := c.memoryBytes + sizeOfKey key + sizeOfValue value
      entriesCurrent := c.entriesCurrent + 1 },
    ?_, ?_, rfl, rfl, hlen2', rfl, rfl, rfl, ?_, hkvu⟩
  · simp only [FifoCache.put, hl, ge_iff_le, Nat.not_le.mpr hlt, if_false,
      Option.bind_eq_bind, hes1, Option.some_bind, hes2]
  · refine ⟨by rw [hlen2']; exact hlt, ?_, ?_, ?_, ?_⟩
    · intro h
      rw [hlen2'] at h
      exact absurd h (by omega)
    · intro _
      rw [hlen2']
      exact ⟨Nat.lt_succ_self _, hla1⟩
    · intro e he
      rw [hlen2']
      exact hB2 e he
    · intro p hp
      rw [hlen2']
      rcases mem_mapInsert _ _ _ _ hp with h | rfl
      · exact Nat.lt_succ_of_lt (hidx p h)
      · exact Nat.lt_succ_self _
  · have h := hkvu c.entries.length
    simp only [List.get?_eq_getElem?] at h
    rw [List.getElem?_concat_length] at h
    cases hx : es2.get? c.entries.length with
    | none =>
      rw [List.get?_eq_getElem?] at hx
      rw [hx] at h
      simp at h
    | some e' =>
      rw [List.get?_eq_getElem?] at hx
      rw [hx] at h
      simp at h
      exact ⟨e', rfl, h.1, h.2.1, h.2.2⟩

theorem WellIndexed_of_core (c c' : FifoCache) (hs : c'.size = c.size)
    (he : c'.entries = c.entries) (hi : c'.index = c.index)
    (hf : c'.first = c.first) (hl : c'.last = c.last) (hwi : WellIndexed c) :
    WellIndexed c' := by
  unfold WellIndexed at *
  rw [hs, he, hi, hf, hl]
  exact hwi

/-- `put` always succeeds and preserves the bounds invariant on a
well-indexed cache with nonzero capacity. -/
theorem put_wi (c : FifoCache) (key : String) (value : GoValue) (now : Int)
    (hwi : WellIndexed c) (hsz : 0 < c.size) :
    ∃ c', c.put key value now = some c' ∧ WellIndexed c' ∧
      c'.size = c.size ∧ c'.validity = c.validity := by
  cases hl : mapLookup c.index key with
  | some idx =>
    obtain ⟨c', h1, h2, h3, h4, _, _, _⟩ := put_update_spec c key value now idx hwi hl
    exact ⟨c', h1, h2, h3, h4⟩
  | none =>
    by_cases hge : c.size ≤ c.entries.length
    · obtain ⟨c', e0, _, h1, h2, h3, h4, _, _, _, _, _, _⟩ :=
        put_evict_spec c key value now hwi hl hge hsz
      exact ⟨c', h1, h2, h3, h4⟩
    · obtain ⟨c', h1, h2, h3, h4, _, _, _, _, _, _⟩ :=
        put_append_spec c key value now hwi hl (Nat.lt_of_not_le hge)
      exact ⟨c', h1, h2, h3, h4⟩

theorem putLoop_wi (keys : List String) (values : List GoValue) (now : Int) :
    ∀ c, WellIndexed c → 0 < c.size → keys.length ≤ values.length →
    ∃ c', FifoCache.putLoop c keys values now = some c' ∧ WellIndexed c' ∧
      c'.size = c.size ∧ c'.validity = c.validity := by
  induction keys generalizing values with
  | nil =>
    intro c hwi _ _
    exact ⟨c, rfl, hwi, rfl, rfl⟩
  | cons k ks ih =>
    intro c hwi hsz hlen
    cases values with
    | nil => simp at hlen
    | cons v vs =>
      obtain ⟨c1, h1, hwi1, hs1, hv1⟩ := put_wi c k v now hwi hsz
      obtain ⟨c2, h2, hwi2, hs2, hv2⟩ :=
        ih vs c1 hwi1 (by rw [hs1]; exact hsz) (by simpa using hlen)
      refine ⟨c2, ?_, hwi2, hs2.trans hs1, hv2.trans hv1⟩
      simp [FifoCache.putLoop, h1, h2]

/-- When the values slice is shorter than the keys slice, the batch
loop hits `values[i]` out of bounds: a panic. -/
theorem putLoop_short (keys : List String) (values : List GoValue) (now : Int) :
    ∀ c, values.length < keys.length →
      FifoCache.putLoop c keys values now = none := by
  induction keys generalizing values with
  | nil =>
    intro c h
    simp at h
  | cons k ks ih =>
    intro c h
    cases values with
    | nil => simp [FifoCache.putLoop]
    | cons v vs =>
      cases hp : c.put k v now with
      | none => simp [FifoCache.putLoop, hp]
      | some c1 => simp [FifoCache.putLoop, hp, ih vs c1 (by simpa using h)]

theorem putLoop_pres (keys : List String) (values : List GoValue) (now : Int) :
    ∀ c c', WellIndexed c → 0 < c.size →
      FifoCache.putLoop c keys values now = some c' →
      WellIndexed c' ∧ c'.size = c.size ∧ c'.validity = c.validity := by
  induction keys generalizing values with
  | nil =>
    intro c c' hwi _ h
    simp [FifoCache.putLoop] at h
    subst h
    exact ⟨hwi, rfl, rfl⟩
  | cons k ks ih =>
    intro c c' hwi hsz h
    cases values with
    | nil => simp [FifoCache.putLoop] at h
    | cons v vs =>
      obtain ⟨c1', hput, hwi1, hs1, hv1⟩ := put_wi c k v now hwi hsz
      have h2 : (c.put k v now).bind
          (fun c1 => FifoCache.putLoop c1 ks vs now) = some c' := h
      rw [hput, Option.some_bind] at h2
      obtain ⟨hwi', hs', hv'⟩ := ih vs c1' c' hwi1 (by rw [hs1]; exact hsz) h2
      exact ⟨hwi', hs'.trans hs1, hv'.trans hv1⟩

theorem Put_pres (c : FifoCache) (keys : List String) (values : List GoValue)
    (now : Int) (c' : FifoCache) (hwi : WellIndexed c)
    (h : FifoCache.Put c keys values now = some c') :
    WellIndexed c' ∧ c'.size = c.size ∧ c'.validity = c.validity := by
  by_cases hsz : c.size = 0
  · have h' : FifoCache.Put c keys values now =
        some { c with entriesAdded := c.entriesAdded + 1 } := by
      unfold FifoCache.Put
      rw [if_pos hsz]
    rw [h'] at h
    injection h with h
    rw [← h]
    exact ⟨WellIndexed_of_core c _ rfl rfl rfl rfl rfl hwi, rfl, rfl⟩
  · have h' : FifoCache.Put c keys values now =
        FifoCache.putLoop { c with entriesAdded := c.entriesAdded + 1 } keys values now := by
      unfold FifoCache.Put
      rw [if_neg hsz]
    rw [h'] at h
    exact putLoop_pres keys values now { c with entriesAdded := c.entriesAdded + 1 } c'
      (WellIndexed_of_core c _ rfl rfl rfl rfl rfl hwi) (Nat.pos_of_ne_zero hsz) h

/-- What `Get` returns, in terms of the pure observation `getPure`: it
never panics on a well-indexed cache, the found flag is exactly
`isSome`, and the state keeps its core fields. -/
theorem Get_spec (c : FifoCache) (key : String) (now : Int) (hwi : WellIndexed c) :
    ∃ c', c.Get key now = some (getPure c key now, (getPure c key now).isSome, c') ∧
      c'.size = c.size ∧ c'.validity = c.validity ∧ c'.entries = c.entries ∧
      c'.index = c.index ∧ c'.first = c.first ∧ c'.last = c.last := by
  by_cases hsz : c.size = 0
  · refine ⟨{ c with totalGets := c.totalGets + 1 }, ?_, rfl, rfl, rfl, rfl, rfl, rfl⟩
    simp [FifoCache.Get, getPure, hsz]
  · cases hl : mapLookup c.index key with
    | none =>
      refine ⟨{ c with totalGets := c.totalGets + 1, totalMisses := c.totalMisses + 1 }, ?_, rfl, rfl, rfl, rfl, rfl, rfl⟩
      simp [FifoCache.Get, getPure, hsz, hl]
    | some idx =>
      have hix : idx < c.entries.length := hwi.2.2.2.2 (key, idx) (mapLookup_mem _ _ _ hl)
      obtain ⟨e, he⟩ := get?_eq_some_of_lt c.entries idx hix
      rw [List.get?_eq_getElem?] at he
      by_cases hv : c.validity = 0 ∨ now - e.updated < c.validity
      · refine ⟨{ c with totalGets := c.totalGets + 1 }, ?_, rfl, rfl, rfl, rfl, rfl, rfl⟩
        simp [FifoCache.Get, getPure, hsz, hl, he, hv]
      · refine ⟨{ c with totalGets := c.totalGets + 1, totalMisses := c.totalMisses + 1, staleGets := c.staleGets + 1 }, ?_, rfl, rfl, rfl, rfl, rfl, rfl⟩
        simp [FifoCache.Get, getPure, hsz, hl, he, hv]

/-- Every reachable cache state satisfies the bounds invariant. -/
theorem reachable_wellIndexed (c : FifoCache) (h : Reachable c) : WellIndexed c := by
  induction h with
  | new size validity =>
    refine ⟨?_, ?_, ?_, ?_, ?_⟩ <;> simp [NewFifoCache]
  | put c keys values now c' hr hp ih => exact (Put_pres c keys values now c' ih hp).1
  | get c key now r hr hg ih =>
    obtain ⟨c'', hG, hs, hv, he, hi, hf, hl⟩ := Get_spec c key now ih
    rw [hG] at hg
    injection hg with hg
    rw [← hg]
    exact WellIndexed_of_core c c'' hs he hi hf hl ih

theorem getPure_hit (c : FifoCache) (key : String) (now : Int) (i : Nat)
    (e : cacheEntry) (hsz : c.size ≠ 0) (hl : mapLookup c.index key = some i)
    (he : c.entries.get? i = some e)
    (hv : c.validity = 0 ∨ now - e.updated < c.validity) :
    getPure c key now = some e.value := by
  rw [List.get?_eq_getElem?] at he
  simp [getPure, hsz, hl, he, hv]

theorem getVB_eq (c : FifoCache) (key : String) (now : Int) (hwi : WellIndexed c) :
    getVB c key now = some (getPure c key now, (getPure c key now).isSome) := by
  obtain ⟨c', h, _⟩ := Get_spec c key now hwi
  simp [getVB, h]

theorem Put_single (c : FifoCache) (key : String) (value : GoValue) (now : Int)
    (hsz : c.size ≠ 0) :
    c.Put [key] [value] now =
      FifoCache.put { c with entriesAdded := c.entriesAdded + 1 } key value now := by
  unfold FifoCache.Put
  rw [if_neg hsz]
  cases hp : FifoCache.put { c with entriesAdded := c.entriesAdded + 1 } key value now with
  | none => simp [FifoCache.putLoop, hp]
  | some c1 => simp [FifoCache.putLoop, hp]

theorem Get_hit_eq (c : FifoCache) (key : String) (now : Int) (i : Nat)
    (e : cacheEntry) (hsz : c.size ≠ 0) (hl : mapLookup c.index key = some i)
    (he : c.entries.get? i = some e)
    (hv : c.validity = 0 ∨ now - e.updated < c.validity) :
    c.Get key now = some (some e.value, true, { c with totalGets := c.totalGets + 1 }) := by
  rw [List.get?_eq_getElem?] at he
  simp [FifoCache.Get, hsz, hl, he, hv]

theorem Get_stale_eq (c : FifoCache) (key : String) (now : Int) (i : Nat)
    (e : cacheEntry) (hsz : c.size ≠ 0) (hl : mapLookup c.index key = some i)
    (he : c.entries.get? i = some e)
    (hv0 : c.validity ≠ 0) (hge : c.validity ≤ now - e.updated) :
    c.Get key now = some (none, false, { c with totalGets := c.totalGets + 1, totalMisses := c.totalMisses + 1, staleGets := c.staleGets + 1 }) := by
  rw [List.get?_eq_getElem?] at he
  have hv : ¬(c.validity = 0 ∨ now - e.updated < c.validity) := by
    push_neg
    exact ⟨hv0, by omega⟩
  simp [FifoCache.Get, hsz, hl, he, hv]

/-- C5: for a present key, the staleness gate gives a hit exactly when
`validity = 0` or `t - last_write < validity`; otherwise a miss that
bumps both the generic miss counter and the stale counter, with no
other state change. -/
theorem c5_staleness_gate :
    ∀ (c : FifoCache) (key : String) (t : Int) (i : Nat) (e : cacheEntry),
      c.size ≠ 0 → mapLookup c.index key = some i → c.entries.get? i = some e →
      ((c.validity = 0 →
          c.Get key t = some (some e.value, true, { c with totalGets := c.totalGets + 1 })) ∧
        (0 < c.validity → t - e.updated < c.validity →
          c.Get key t = some (some e.value, true, { c with totalGets := c.totalGets + 1 })) ∧
        (0 < c.validity → c.validity ≤ t - e.updated →
          c.Get key t = some (none, false, { c with totalGets := c.totalGets + 1, totalMisses := c.totalMisses + 1, staleGets := c.staleGets + 1 }))) := by
  intro c key t i e hsz hl he
  refine ⟨?_, ?_, ?_⟩
  · intro h0
    exact Get_hit_eq c key t i e hsz hl he (Or.inl h0)
  · intro _ hlt
    exact Get_hit_eq c key t i e hsz hl he (Or.inr hlt)
  · intro hpos hge
    exact Get_stale_eq c key t i e hsz hl he (by omega) hge

/-- Witness for C5 at a concrete state: a read at elapsed 5 hits, a
read at elapsed 10 is a stale miss. -/
theorem c5_staleness_gate_witness :
    cacheV.Get "k" 5 = some (some (GoValue.bytes [9]), true, { cacheV with totalGets := cacheV.totalGets + 1 }) ∧
    cacheV.Get "k" 10 = some (none, false, { cacheV with totalGets := cacheV.totalGets + 1, totalMisses := cacheV.totalMisses + 1, staleGets := cacheV.staleGets + 1 }) := by
  have h5 := c5_staleness_gate cacheV "k" 5 0
    { updated := 0, key := "k", value := GoValue.bytes [9], prev := 0, next := 0 }
    (by decide) (by decide) (by decide)
  have h10 := c5_staleness_gate cacheV "k" 10 0
    { updated := 0, key := "k", value := GoValue.bytes [9], prev := 0, next := 0 }
    (by decide) (by decide) (by decide)
  exact ⟨h5.2.1 (by decide) (by decide), h10.2.2 (by decide) (by decide)⟩

/-- C6: with `size = 0`, every `Put` only bumps the added counter and
leaves entries, index, `first` and `last` (and everything else)
unchanged, and every `Get` is a miss that only bumps the gets
counter. -/
theorem c6_zero_size_noop :
    ∀ (c : FifoCache) (keys : List String) (values : List GoValue) (now : Int)
      (key : String) (t : Int), c.size = 0 →
      c.Put keys values now = some { c with entriesAdded := c.entriesAdded + 1 } ∧
      c.Get key t = some (none, false, { c with totalGets := c.totalGets + 1 }) := by
  intro c keys values now key t hsz
  constructor
  · simp [FifoCache.Put, hsz]
  · simp [FifoCache.Get, hsz]

/-- Witness for C6 at a concrete state (capacity 0, after a prior put). -/
theorem c6_zero_size_noop_witness :
    FifoCache.Put cacheZeroOne ["x"] [GoValue.bytes [1]] 3 =
      some { cacheZeroOne with entriesAdded := cacheZeroOne.entriesAdded + 1 } ∧
    cacheZeroOne.Get "x" 3 = some (none, false, { cacheZeroOne with totalGets := cacheZeroOne.totalGets + 1 }) :=
  c6_zero_size_noop cacheZeroOne ["x"] [GoValue.bytes [1]] 3 "x" 3 (by decide)

/-- C8: `Get` never changes the entries array, the index map, or the
ring pointers, whatever the outcome (hit, plain miss, or stale miss). -/
theorem c8_get_never_mutates :
    ∀ (c : FifoCache) (key : String) (now : Int) (v : Option GoValue) (ok : Bool)
      (c' : FifoCache), c.Get key now = some (v, ok, c') →
      c'.entries = c.entries ∧ c'.index = c.index ∧
      c'.first = c.first ∧ c'.last = c.last := by
  intro c key now v ok c' h
  unfold FifoCache.Get at h
  dsimp only [] at h
  split at h
  · simp only [Option.some.injEq, Prod.mk.injEq] at h
    obtain ⟨-, -, hc⟩ := h
    rw [← hc]
    exact ⟨rfl, rfl, rfl, rfl⟩
  · split at h
    · split at h
      · exact absurd h (by simp)
      · split at h
        · simp only [Option.some.injEq, Prod.mk.injEq] at h
          obtain ⟨-, -, hc⟩ := h
          rw [← hc]
          exact ⟨rfl, rfl, rfl, rfl⟩
        · simp only [Option.some.injEq, Prod.mk.injEq] at h
          obtain ⟨-, -, hc⟩ := h
          rw [← hc]
          exact ⟨rfl, rfl, rfl, rfl⟩
    · simp only [Option.some.injEq, Prod.mk.injEq] at h
      obtain ⟨-, -, hc⟩ := h
      rw [← hc]
      exact ⟨rfl, rfl, rfl, rfl⟩

/-- Witness for C8 at a concrete state: a hit on `a` in the two-entry
cache leaves entries, index and ring pointers untouched. -/
theorem c8_get_never_mutates_witness :
    cacheABGetA.2.2.entries = cacheAB.entries ∧ cacheABGetA.2.2.index = cacheAB.index ∧
    cacheABGetA.2.2.first = cacheAB.first ∧ cacheABGetA.2.2.last = cacheAB.last :=
  c8_get_never_mutates cacheAB "a" 0 cacheABGetA.1 cacheABGetA.2.1 cacheABGetA.2.2 (by rfl)

/-- C4 counterexample: with capacity 0 (allowed by the claim, which
states no capacity restriction), a put followed immediately by a get of
the same key misses. -/
theorem c4_counterexample_zero_capacity :
    FifoCache.Put (NewFifoCache 0 0) ["k"] [GoValue.bytes [7]] 0 = some cacheZeroOne ∧
    getVB cacheZeroOne "k" 0 = some (none, false) := ⟨rfl, rfl⟩

/-- C4 (amended to capacity > 0): on every reachable cache with
positive capacity, `put(k, v)` immediately followed by `get(k)` within
the validity window returns `(v, true)`. -/
theorem c4_amended_put_get_roundtrip :
    ∀ (c : FifoCache) (key : String) (value : GoValue) (now : Int),
      Reachable c → 0 < c.size → (c.validity = 0 ∨ 0 < c.validity) →
      ∃ c', c.Put [key] [value] now = some c' ∧
        getVB c' key now = some (some value, true) := by
  intro c key value now hr hsz hvw
  have hwi := reachable_wellIndexed c hr
  have hszne : c.size ≠ 0 := by omega
  have hwib : WellIndexed { c with entriesAdded := c.entriesAdded + 1 } :=
    WellIndexed_of_core c _ rfl rfl rfl rfl rfl hwi
  have hP := Put_single c key value now hszne
  cases hl : mapLookup c.index key with
  | some idx =>
    obtain ⟨c1, h1, hwi1, hs1, hv1, hix1, hlen1, e', he', hev, heu⟩ :=
      put_update_spec { c with entriesAdded := c.entriesAdded + 1 } key value now idx hwib hl
    refine ⟨c1, by rw [hP, h1], ?_⟩
    rw [getVB_eq c1 key now hwi1]
    have hg : getPure c1 key now = some e'.value :=
      getPure_hit c1 key now idx e' (by rw [hs1]; exact hszne)
        (by rw [hix1]; exact hl) he'
        (by
          rcases hvw with h | h
          · exact Or.inl (by rw [hv1]; exact h)
          · refine Or.inr ?_
            rw [hv1, heu]
            simpa using h)
    rw [hg, hev]
    simp
  | none =>
    by_cases hge : c.size ≤ c.entries.length
    · obtain ⟨c1, e0, he0, h1, hwi1, hs1, hv1, hlen1, hix1, hf1, hl1, hslot, hother⟩ :=
        put_evict_spec { c with entriesAdded := c.entriesAdded + 1 } key value now hwib hl hge hsz
      refine ⟨c1, by rw [hP, h1], ?_⟩
      rw [getVB_eq c1 key now hwi1]
      have hlk : mapLookup c1.index key = some c.last := by
        rw [hix1]
        exact mapLookup_insert_self _ _ _
      have hg : getPure c1 key now = some value := by
        have := getPure_hit c1 key now c.last
          { updated := now, key := key, value := value, prev := e0.prev, next := e0.next }
          (by rw [hs1]; exact hszne) hlk hslot
          (by
            rcases hvw with h | h
            · exact Or.inl (by rw [hv1]; exact h)
            · refine Or.inr ?_
              rw [hv1]
              simpa using h)
        simpa using this
      rw [hg]
      simp
    · obtain ⟨c1, h1, hwi1, hs1, hv1, hlen1, hix1, hf1, hl1, ⟨e', he', hek, hev, heu⟩, hkvu⟩ :=
        put_append_spec { c with entriesAdded := c.entriesAdded + 1 } key value now hwib hl
          (Nat.lt_of_not_le hge)
      refine ⟨c1, by rw [hP, h1], ?_⟩
      rw [getVB_eq c1 key now hwi1]
      have hlk : mapLookup c1.index key = some c.entries.length := by
        rw [hix1]
        exact mapLookup_insert_self _ _ _
      have hg : getPure c1 key now = some e'.value :=
        getPure_hit c1 key now c.entries.length e'
          (by rw [hs1]; exact hszne) hlk he'
          (by
            rcases hvw with h | h
            · exact Or.inl (by rw [hv1]; exact h)
            · refine Or.inr ?_
              rw [hv1, heu]
              simpa using h)
      rw [hg, hev]
      simp

/-- Witness for the amended C4 at a concrete reachable state. -/
theorem c4_amended_put_get_roundtrip_witness :
    ∃ c', FifoCache.Put (NewFifoCache 1 0) ["k"] [GoValue.bytes [5]] 2 = some c' ∧
      getVB c' "k" 2 = some (some (GoValue.bytes [5]), true) :=
  c4_amended_put_get_roundtrip (NewFifoCache 1 0) "k" (GoValue.bytes [5]) 2
    (Reachable.new 1 0) (by decide) (Or.inl (by decide))

/-- C9: `Put` never goes out of bounds when the values slice is at
least as long as the keys slice, and with `size > 0` a longer keys
slice makes the loop read `values[i]` out of bounds (a panic). -/
theorem c9_put_totality_and_oob :
    (∀ (c : FifoCache) (keys : List String) (values : List GoValue) (now : Int),
      Reachable c → keys.length ≤ values.length →
      ∃ c', c.Put keys values now = some c') ∧
    (∀ (c : FifoCache) (keys : List String) (values : List GoValue) (now : Int),
      0 < c.size → values.length < keys.length →
      c.Put keys values now = none) := by
  constructor
  · intro c keys values now hr hlen
    have hwi := reachable_wellIndexed c hr
    by_cases hsz : c.size = 0
    · refine ⟨{ c with entriesAdded := c.entriesAdded + 1 }, ?_⟩
      unfold FifoCache.Put
      rw [if_pos hsz]
    · obtain ⟨c', h, _, _, _⟩ := putLoop_wi keys values now
        { c with entriesAdded := c.entriesAdded + 1 }
        (WellIndexed_of_core c _ rfl rfl rfl rfl rfl hwi) (Nat.pos_of_ne_zero hsz) hlen
      refine ⟨c', ?_⟩
      unfold FifoCache.Put
      rw [if_neg hsz]
      exact h
  · intro c keys values now hsz hlen
    unfold FifoCache.Put
    rw [if_neg (by omega : ¬c.size = 0)]
    exact putLoop_short keys values now _ hlen

/-- Witness for C9: a matched-length batch on a fresh cache succeeds;
one key with no values on a capacity-2 cache panics. -/
theorem c9_put_totality_and_oob_witness :
    (∃ c', FifoCache.Put (NewFifoCache 1 0) ["a"] [GoValue.bytes [1]] 0 = some c') ∧
    FifoCache.Put (NewFifoCache 2 0) ["a"] [] 0 = none :=
  ⟨c9_put_totality_and_oob.1 (NewFifoCache 1 0) ["a"] [GoValue.bytes [1]] 0
      (Reachable.new 1 0) (by decide),
    c9_put_totality_and_oob.2 (NewFifoCache 2 0) ["a"] [] 0 (by decide) (by decide)⟩

theorem setPrev_length (es : List cacheEntry) (i p : Nat) (es' : List cacheEntry)
    (h : setPrev es i p = some es') : es'.length = es.length := by
  unfold setPrev at h
  cases he : es.get? i with
  | none => rw [he] at h; simp at h
  | some e =>
    rw [he] at h
    exact setEntry_length _ _ _ _ h

theorem setNext_length (es : List cacheEntry) (i n : Nat) (es' : List cacheEntry)
    (h : setNext es i n = some es') : es'.length = es.length := by
  unfold setNext at h
  cases he : es.get? i with
  | none => rw [he] at h; simp at h
  | some e =>
    rw [he] at h
    exact setEntry_length _ _ _ _ h

/-- On any state, a successful single-key `put` keeps the capacity and
either keeps the entry count (update or evict) or grows it by one, the
latter only when there was spare capacity. -/
theorem put_length (c : FifoCache) (key : String) (value : GoValue) (now : Int)
    (c' : FifoCache) (h : c.put key value now = some c') :
    c'.size = c.size ∧
    (c'.entries.length = c.entries.length ∨
      (c'.entries.length = c.entries.length + 1 ∧ c.entries.length < c.size)) := by
  unfold FifoCache.put at h
  dsimp only [] at h
  split at h
  · simp only [Option.bind_eq_bind, Option.bind_eq_some, Option.some.injEq] at h
    obtain ⟨e0, he0, es1, hes1, es2, hes2, es3, hes3, es4, hes4, es5, hes5, hc⟩ := h
    rw [← hc]
    refine ⟨rfl, Or.inl ?_⟩
    rw [setEntry_length _ _ _ _ hes5, setNext_length _ _ _ _ hes4,
      setPrev_length _ _ _ _ hes3, setPrev_length _ _ _ _ hes2,
      setNext_length _ _ _ _ hes1]
  · split at h
    · simp only [Option.bind_eq_bind, Option.bind_eq_some, Option.some.injEq] at h
      obtain ⟨e0, he0, es1, hes1, hc⟩ := h
      rw [← hc]
      refine ⟨rfl, Or.inl ?_⟩
      exact setEntry_length _ _ _ _ hes1
    · rename_i hnotge
      simp only [Option.bind_eq_bind, Option.bind_eq_some, Option.some.injEq] at h
      obtain ⟨es1, hes1, es2, hes2, hc⟩ := h
      rw [← hc]
      refine ⟨rfl, Or.inr ⟨?_, ?_⟩⟩
      · rw [setNext_length _ _ _ _ hes2, setPrev_length _ _ _ _ hes1]
        simp
      · simp only [ge_iff_le, Nat.not_le] at hnotge
        exact hnotge

theorem putLoop_size_fixed (keys : List String) (values : List GoValue) (now : Int) :
    ∀ c c', c.entries.length = c.size →
      FifoCache.putLoop c keys values now = some c' →
      c'.entries.length = c'.size ∧ c'.size = c.size := by
  induction keys generalizing values with
  | nil =>
    intro c c' hl h
    simp [FifoCache.putLoop] at h
    subst h
    exact ⟨hl, rfl⟩
  | cons k ks ih =>
    intro c c' hl h
    cases values with
    | nil => simp [FifoCache.putLoop] at h
    | cons v vs =>
      have h2 : (c.put k v now).bind
          (fun c1 => FifoCache.putLoop c1 ks vs now) = some c' := h
      cases hp : c.put k v now with
      | none =>
        rw [hp] at h2
        simp at h2
      | some c1 =>
        rw [hp, Option.some_bind] at h2
        obtain ⟨hs, hlen⟩ := put_length c k v now c1 hp
        rcases hlen with he | ⟨_, hlt⟩
        · obtain ⟨ha, hb⟩ := ih vs c1 c' (by rw [he, hs]; exact hl) h2
          exact ⟨ha, hb.trans hs⟩
        · rw [hl] at hlt
          omega

/-- C7: reachable states never hold more entries than the capacity; a
full cache never grows across any batch put; and on a full cache a
first-time key reuses the slot indexed by `last` instead of appending. -/
theorem c7_capacity_bound :
    (∀ c : FifoCache, Reachable c → c.entries.length ≤ c.size) ∧
    (∀ (c : FifoCache) (keys : List String) (values : List GoValue) (now : Int)
      (c' : FifoCache), c.entries.length = c.size →
      c.Put keys values now = some c' → c'.entries.length = c.size) ∧
    (∀ (c : FifoCache) (key : String) (value : GoValue) (now : Int),
      Reachable c → c.entries.length = c.size → 0 < c.size →
      mapLookup c.index key = none →
      ∃ c', c.Put [key] [value] now = some c' ∧
        c'.entries.length = c.size ∧ mapLookup c'.index key = some c.last) := by
  refine ⟨?_, ?_, ?_⟩
  · intro c hr
    exact (reachable_wellIndexed c hr).1
  · intro c keys values now c' hl h
    by_cases hsz : c.size = 0
    · have h' : FifoCache.Put c keys values now =
          some { c with entriesAdded := c.entriesAdded + 1 } := by
        unfold FifoCache.Put
        rw [if_pos hsz]
      rw [h'] at h
      injection h with h
      rw [← h]
      exact hl
    · have h' : FifoCache.Put c keys values now =
          FifoCache.putLoop { c with entriesAdded := c.entriesAdded + 1 } keys values now := by
        unfold FifoCache.Put
        rw [if_neg hsz]
      rw [h'] at h
      obtain ⟨ha, hb⟩ := putLoop_size_fixed keys values now
        { c with entriesAdded := c.entriesAdded + 1 } c' hl h
      rw [ha]
      exact hb
  · intro c key value now hr hl hsz hnone
    have hwi := reachable_wellIndexed c hr
    have hszne : c.size ≠ 0 := by omega
    have hwib := WellIndexed_of_core c { c with entriesAdded := c.entriesAdded + 1 }
      rfl rfl rfl rfl rfl hwi
    obtain ⟨c1, e0, he0, h1, hwi1, hs1, hv1, hlen1, hix1, hf1, hl1, hslot, hother⟩ :=
      put_evict_spec { c with entriesAdded := c.entriesAdded + 1 } key value now hwib
        hnone hl.ge hsz
    refine ⟨c1, by rw [Put_single c key value now hszne, h1], ?_, ?_⟩
    · rw [hlen1]
      exact hl
    · rw [hix1]
      exact mapLookup_insert_self _ _ _

/-- Witness for C7: putting first-time `b` into the full capacity-1
cache keeps one entry and reuses the `last` slot. -/
theorem c7_capacity_bound_witness :
    ∃ c', FifoCache.Put cacheFull1 ["b"] [GoValue.bytes [2]] 1 = some c' ∧
      c'.entries.length = cacheFull1.size ∧ mapLookup c'.index "b" = some cacheFull1.last :=
  c7_capacity_bound.2.2 cacheFull1 "b" (GoValue.bytes [2]) 1
    (Reachable.put (NewFifoCache 1 0) ["a"] [GoValue.bytes [1]] 0 cacheFull1
      (Reachable.new 1 0) (by rfl))
    (by decide) (by decide) (by decide)

theorem getPure_coreEq (c0 c : FifoCache) (h : coreEq c0 c) (k : String) (t : Int) :
    getPure c k t = getPure c0 k t := by
  obtain ⟨hs, hv, he, hi, -, -⟩ := h
  unfold getPure
  rw [hs, hv, he, hi]

theorem Fetch_go (now : Int) :
    ∀ (keys : List String) (c0 c : FifoCache), WellIndexed c → coreEq c0 c →
      (∀ k ∈ keys, ∀ v, getPure c0 k now = some v → ∃ bs, v = GoValue.bytes bs) →
      ∃ c', c.Fetch keys now = some
        (keys.filter (fun k => (getPure c0 k now).isSome),
          keys.filterMap (fun k => hitBytes c0 k now),
          keys.filter (fun k => (getPure c0 k now).isNone), c') := by
  intro keys
  induction keys with
  | nil =>
    intro c0 c hwi hcore hbytes
    exact ⟨c, rfl⟩
  | cons k ks ih =>
    intro c0 c hwi hcore hbytes
    obtain ⟨c1, hG, hs, hv, he, hi, hf, hl⟩ := Get_spec c k now hwi
    have hget : getPure c k now = getPure c0 k now := getPure_coreEq c0 c hcore k now
    have hcore1 : coreEq c0 c1 :=
      ⟨hs.trans hcore.1, hv.trans hcore.2.1, he.trans hcore.2.2.1,
        hi.trans hcore.2.2.2.1, hf.trans hcore.2.2.2.2.1, hl.trans hcore.2.2.2.2.2⟩
    have hwi1 : WellIndexed c1 := WellIndexed_of_core c c1 hs he hi hf hl hwi
    obtain ⟨c2, hF⟩ := ih c0 c1 hwi1 hcore1
      (fun k' hk' v hv' => hbytes k' (List.mem_cons_of_mem _ hk') v hv')
    cases hp : getPure c0 k now with
    | none =>
      refine ⟨c2, ?_⟩
      rw [show FifoCache.Fetch c (k :: ks) now =
          (c.Get k now).bind (fun r =>
            if r.2.1 = true then
              match r.1 with
              | some (GoValue.bytes bs) =>
                (FifoCache.Fetch r.2.2 ks now).bind (fun q =>
                  some (k :: q.1, bs :: q.2.1, q.2.2.1, q.2.2.2))
              | _ => none
            else
              (FifoCache.Fetch r.2.2 ks now).bind (fun q =>
                some (q.1, q.2.1, k :: q.2.2.1, q.2.2.2))) from rfl, hG]
      rw [hget, hp] at hG ⊢
      simp only [Option.some_bind']
      rw [hF]
      simp [List.filter_cons, List.filterMap_cons, hitBytes, hp]
    | some v =>
      obtain ⟨bs, rfl⟩ := hbytes k (List.mem_cons_self _ _) v hp
      refine ⟨c2, ?_⟩
      rw [show FifoCache.Fetch c (k :: ks) now =
          (c.Get k now).bind (fun r =>
            if r.2.1 = true then
              match r.1 with
              | some (GoValue.bytes bs2) =>
                (FifoCache.Fetch r.2.2 ks now).bind (fun q =>
                  some (k :: q.1, bs2 :: q.2.1, q.2.2.1, q.2.2.2))
              | _ => none
            else
              (FifoCache.Fetch r.2.2 ks now).bind (fun q =>
                some (q.1, q.2.1, k :: q.2.2.1, q.2.2.2))) from rfl, hG]
      rw [hget, hp] at hG ⊢
      simp only [Option.some_bind']
      rw [hF]
      simp [List.filter_cons, List.filterMap_cons, hitBytes, hp]

/-- C10: on every reachable state whose hit values are all byte
slices, `Fetch` is total and partitions the keys in input order into
found (with their byte buffers) and missing; and on a state holding a
non-byte-slice value under a fetched key, the `val.([]byte)` assertion
panics. -/
theorem c10_fetch_assertion :
    (∀ (c : FifoCache) (keys : List String) (now : Int), Reachable c →
      (∀ k ∈ keys, ∀ v, getPure c k now = some v → ∃ bs, v = GoValue.bytes bs) →
      ∃ c', c.Fetch keys now = some
        (keys.filter (fun k => (getPure c k now).isSome),
          keys.filterMap (fun k => hitBytes c k now),
          keys.filter (fun k => (getPure c k now).isNone), c')) ∧
    (FifoCache.Put (NewFifoCache 1 0) ["k"] [GoValue.str "s"] 0 = some cacheStr ∧
      cacheStr.Fetch ["k"] 0 = none) := by
  constructor
  · intro c keys now hr hbytes
    exact Fetch_go now keys c c (reachable_wellIndexed c hr)
      ⟨rfl, rfl, rfl, rfl, rfl, rfl⟩ hbytes
  · exact ⟨rfl, rfl⟩

/-- Witness for C10: fetching a present key and an absent key from the
two-entry cache partitions them in order with the stored bytes. -/
theorem c10_fetch_assertion_witness :
    ∃ c', cacheAB.Fetch ["a", "z"] 0 = some (["a"], [[1]], ["z"], c') := by
  have hrA : Reachable cacheA :=
    Reachable.put (NewFifoCache 2 0) ["a"] [GoValue.bytes [1]] 0 cacheA
      (Reachable.new 2 0) (by rfl)
  have hrAB : Reachable cacheAB :=
    Reachable.put cacheA ["b"] [GoValue.bytes [2]] 1 cacheAB hrA (by rfl)
  obtain ⟨c', h⟩ := c10_fetch_assertion.1 cacheAB ["a", "z"] 0 hrAB (by
    intro k hk v hv
    rcases List.mem_cons.mp hk with rfl | hk'
    · have ha : getPure cacheAB "a" 0 = some (GoValue.bytes [1]) := rfl
      rw [ha] at hv
      injection hv with hv
      exact ⟨[1], hv.symm⟩
    · rcases List.mem_cons.mp hk' with rfl | hk''
      · have hz : getPure cacheAB "z" 0 = none := rfl
        rw [hz] at hv
        cases hv
      · cases hk'')
  refine ⟨c', ?_⟩
  rw [h]
  rfl

theorem mapLookup_rangeIndex_none (k : Nat → String) (n : Nat) (s : String)
    (h : ∀ i, i < n → k i ≠ s) : mapLookup (rangeIndex k n) s = none := by
  induction n with
  | zero => rfl
  | succ m ih =>
    rw [rangeIndex, List.range_succ, List.map_append, mapLookup_append,
      show (List.range m).map (fun j => (k j, j)) = rangeIndex k m from rfl,
      ih (fun i hi => h i (Nat.lt_succ_of_lt hi))]
    simp [mapLookup, h m (Nat.lt_succ_self m)]

theorem mapLookup_rangeIndex_self (k : Nat → String) (n j : Nat) (hj : j < n)
    (hinj : ∀ i, i < n → k i = k j → i = j) :
    mapLookup (rangeIndex k n) (k j) = some j := by
  induction n with
  | zero => omega
  | succ m ih =>
    rw [rangeIndex, List.range_succ, List.map_append, mapLookup_append,
      show (List.range m).map (fun i => (k i, i)) = rangeIndex k m from rfl]
    by_cases hjm : j < m
    · rw [ih hjm (fun i hi he => hinj i (Nat.lt_succ_of_lt hi) he)]
    · have hje : j = m := by omega
      subst hje
      rw [mapLookup_rangeIndex_none k j (k j) (fun i hi he => by
        have := hinj i (Nat.lt_succ_of_lt hi) he
        omega)]
      simp [mapLookup]

theorem freshRun_zero (S : Nat) (D : Int) (k : Nat → String) (v : Nat → GoValue)
    (ts : Nat → Int) : FreshRun S D k v ts 0 (NewFifoCache S D) := by
  refine ⟨rfl, rfl, rfl, rfl, rfl, rfl, ?_⟩
  intro j hj
  omega

theorem freshRun_step (S : Nat) (D : Int) (k : Nat → String) (v : Nat → GoValue)
    (ts : Nat → Int) (n : Nat) (c : FifoCache) (hrun : FreshRun S D k v ts n c)
    (hwi : WellIndexed c) (hlt : n < S) (hfresh : ∀ i, i < n → k i ≠ k n) :
    ∃ c', c.Put [k n] [v n] (ts n) = some c' ∧ FreshRun S D k v ts (n + 1) c' ∧
      WellIndexed c' := by
  obtain ⟨hS, hD, hlen, hix, hla, hf, hent⟩ := hrun
  have hszne : c.size ≠ 0 := by omega
  have hwib := WellIndexed_of_core c { c with entriesAdded := c.entriesAdded + 1 }
    rfl rfl rfl rfl rfl hwi
  have hnone : mapLookup c.index (k n) = none := by
    rw [hix]
    exact mapLookup_rangeIndex_none k n (k n) hfresh
  obtain ⟨c1, h1, hwi1, hs1, hv1, hlen1, hix1, hf1, hl1, hnew, hkvu⟩ :=
    put_append_spec { c with entriesAdded := c.entriesAdded + 1 } (k n) (v n) (ts n)
      hwib hnone (by show c.entries.length < c.size; omega)
  refine ⟨c1, ?_, ?_, hwi1⟩
  · rw [Put_single c (k n) (v n) (ts n) hszne]
    exact h1
  · refine ⟨hs1.trans hS, hv1.trans hD, ?_, ?_, ?_, ?_, ?_⟩
    · rw [hlen1]
      show c.entries.length + 1 = n + 1
      omega
    · rw [hix1]
      show mapInsert c.index (k n) c.entries.length = rangeIndex k (n + 1)
      rw [mapInsert_of_lookup_none c.index (k n) c.entries.length hnone, hix, hlen]
      simp [rangeIndex, List.range_succ]
    · rw [hl1]
      exact hla
    · rw [hf1]
      show c.entries.length = n + 1 - 1
      omega
    · intro j hj
      by_cases hjn : j = n
      · subst hjn
        obtain ⟨e', he', hek, hev, heu⟩ := hnew
        refine ⟨e', ?_, hek, hev, heu⟩
        rw [← hlen]
        exact he'
      · have hjlt : j < n := by omega
        have h := hkvu j
        rw [List.get?_append (by simp; omega)] at h
        have h2 : Option.map (fun e => (e.key, e.value, e.updated)) (c1.entries.get? j) =
            Option.map (fun e => (e.key, e.value, e.updated)) (c.entries.get? j) := h
        obtain ⟨e, hegt, hek, hev, heu⟩ := hent j hjlt
        rw [hegt] at h2
        cases hx : c1.entries.get? j with
        | none =>
          rw [hx] at h2
          simp at h2
        | some e' =>
          rw [hx] at h2
          simp at h2
          exact ⟨e', rfl, h2.1.trans hek, h2.2.1.trans hev, h2.2.2.trans heu⟩

theorem freshRun_all (S : Nat) (D : Int) (k : Nat → String) (v : Nat → GoValue)
    (ts : Nat → Int) (n : Nat) (hn : n ≤ S)
    (hinj : ∀ i j, i < n → j < n → k i = k j → i = j) :
    ∃ c, putSeqN k v ts (NewFifoCache S D) n = some c ∧
      FreshRun S D k v ts n c ∧ WellIndexed c := by
  induction n with
  | zero =>
    exact ⟨NewFifoCache S D, rfl, freshRun_zero S D k v ts,
      reachable_wellIndexed _ (Reachable.new S D)⟩
  | succ m ih =>
    obtain ⟨c, hc, hrun, hwi⟩ := ih (by omega)
      (fun i j hi hj he => hinj i j (Nat.lt_succ_of_lt hi) (Nat.lt_succ_of_lt hj) he)
    obtain ⟨c', h', hrun', hwi'⟩ := freshRun_step S D k v ts m c hrun hwi (by omega)
      (fun i hi he => by
        have := hinj i m (Nat.lt_succ_of_lt hi) (Nat.lt_succ_self m) he
        omega)
    refine ⟨c', ?_, hrun', hwi'⟩
    rw [putSeqN, hc]
    exact h'

/-- C3: with capacity C > 0, after C+1 first-time puts of pairwise
distinct keys `k 0 .. k C` in order into a fresh cache, a get of `k 0`
misses and gets of `k 1 .. k C` all hit with their original values
(validity 0, or every read within the validity window). -/
theorem c3_fifo_eviction_order :
    ∀ (C : Nat) (D : Int) (k : Nat → String) (v : Nat → GoValue) (ts : Nat → Int)
      (tg : Int), 0 < C →
      (∀ i j, i ≤ C → j ≤ C → k i = k j → i = j) →
      (∀ j, 1 ≤ j → j ≤ C → D = 0 ∨ tg - ts j < D) →
      ∃ cf, putSeqN k v ts (NewFifoCache C D) (C + 1) = some cf ∧
        getVB cf (k 0) tg = some (none, false) ∧
        (∀ j, 1 ≤ j → j ≤ C → getVB cf (k j) tg = some (some (v j), true)) := by
  intro C D k v ts tg hC hinj hwindow
  obtain ⟨c, hc, hrun, hwi⟩ := freshRun_all C D k v ts C le_rfl
    (fun i j hi hj he => hinj i j (le_of_lt hi) (le_of_lt hj) he)
  obtain ⟨hS, hD, hlen, hix, hla, hf, hent⟩ := hrun
  have hszne : c.size ≠ 0 := by omega
  have hwib := WellIndexed_of_core c { c with entriesAdded := c.entriesAdded + 1 }
    rfl rfl rfl rfl rfl hwi
  have hnone : mapLookup c.index (k C) = none := by
    rw [hix]
    exact mapLookup_rangeIndex_none k C (k C) (fun i hi he => by
      have := hinj i C (le_of_lt hi) le_rfl he
      omega)
  obtain ⟨c1, e0, he0, h1, hwi1, hs1, hv1, hlen1, hix1, hf1, hl1, hslot, hother⟩ :=
    put_evict_spec { c with entriesAdded := c.entriesAdded + 1 } (k C) (v C) (ts C)
      hwib hnone (by show c.size ≤ c.entries.length; omega)
      (by show 0 < c.size; omega)
  have hs1' : c1.size = c.size := hs1
  have hv1' : c1.validity = c.validity := hv1
  have hs1ne : c1.size ≠ 0 := by
    rw [hs1']
    exact hszne
  have he0' : c.entries.get? 0 = some e0 := by
    rw [← hla]
    exact he0
  have he0key : e0.key = k 0 := by
    obtain ⟨e, hegt, hek, -, -⟩ := hent 0 hC
    rw [he0'] at hegt
    injection hegt with hegt
    rw [hegt]
    exact hek
  have hix1' : c1.index = mapInsert (mapDelete (rangeIndex k C) (k 0)) (k C) c.last := by
    rw [hix1, he0key]
    show mapInsert (mapDelete c.index (k 0)) (k C) c.last =
      mapInsert (mapDelete (rangeIndex k C) (k 0)) (k C) c.last
    rw [hix]
  refine ⟨c1, ?_, ?_, ?_⟩
  · rw [putSeqN, hc]
    show c.Put [k C] [v C] (ts C) = some c1
    rw [Put_single c (k C) (v C) (ts C) hszne]
    exact h1
  · rw [getVB_eq c1 (k 0) tg hwi1]
    have hk0C : k 0 ≠ k C := fun he => by
      have := hinj 0 C (by omega) le_rfl he
      omega
    have hlk : mapLookup c1.index (k 0) = none := by
      rw [hix1', mapLookup_insert_ne _ _ _ _ hk0C, mapLookup_delete_self]
    have hmiss : getPure c1 (k 0) tg = none := by
      simp [getPure, hs1ne, hlk]
    rw [hmiss]
    rfl
  · intro j h1j hjC
    rw [getVB_eq c1 (k j) tg hwi1]
    by_cases hjC' : j = C
    · subst hjC'
      have hlk : mapLookup c1.index (k j) = some c.last := by
        rw [hix1']
        exact mapLookup_insert_self _ _ _
      have hslot' : c1.entries.get? c.last =
          some { updated := ts j, key := k j, value := v j, prev := e0.prev, next := e0.next } :=
        hslot
      have hhit : getPure c1 (k j) tg = some (v j) := by
        have := getPure_hit c1 (k j) tg c.last
          { updated := ts j, key := k j, value := v j, prev := e0.prev, next := e0.next }
          hs1ne hlk hslot'
          (by
            rcases hwindow j h1j hjC with h | h
            · exact Or.inl (by rw [hv1', hD]; exact h)
            · refine Or.inr ?_
              rw [hv1', hD]
              simpa using h)
        simpa using this
      rw [hhit]
      rfl
    · have hjlt : j < C := by omega
      have hkjC : k j ≠ k C := fun he => by
        have := hinj j C (le_of_lt hjlt) le_rfl he
        omega
      have hkj0 : k j ≠ k 0 := fun he => by
        have := hinj j 0 (le_of_lt hjlt) (by omega) he
        omega
      have hlk : mapLookup c1.index (k j) = some j := by
        rw [hix1', mapLookup_insert_ne _ _ _ _ hkjC, mapLookup_delete_ne _ _ _ hkj0]
        exact mapLookup_rangeIndex_self k C j hjlt
          (fun i hi he => hinj i j (le_of_lt hi) (le_of_lt hjlt) he)
      obtain ⟨e, hegt, hek, hev, heu⟩ := hent j hjlt
      have hj0 : j ≠ c.last := by
        rw [hla]
        omega
      have hslotj : c1.entries.get? j = some e := by
        rw [hother j hj0]
        exact hegt
      have hhit : getPure c1 (k j) tg = some (v j) := by
        have := getPure_hit c1 (k j) tg j e hs1ne hlk hslotj
          (by
            rcases hwindow j h1j hjC with h | h
            · exact Or.inl (by rw [hv1', hD]; exact h)
            · refine Or.inr ?_
              rw [hv1', hD, heu]
              exact h)
        rw [this, hev]
      rw [hhit]
      rfl

/-- Witness for C3 at capacity 2 with three distinct keys. -/
theorem c3_fifo_eviction_order_witness :
    ∃ cf, putSeqN w3k w3v w3t (NewFifoCache 2 0) 3 = some cf ∧
      getVB cf (w3k 0) 10 = some (none, false) ∧
      (∀ j, 1 ≤ j → j ≤ 2 → getVB cf (w3k j) 10 = some (some (w3v j), true)) :=
  c3_fifo_eviction_order 2 0 w3k w3v w3t 10 (by decide)
    (by
      intro i j hi hj he
      interval_cases i <;> interval_cases j <;>
        first
          | rfl
          | (exfalso; revert he; decide))
    (fun _ _ _ => Or.inl rfl)
